import Mathlib

/-!
Shallow embedding of the berth-shifting simulator core (src/app.py):
the Silo data unit, route generation (itertools-style combinations and
permutations over the silo-name list), and the day-by-day route
evaluation loop, together with theorems settling the specification
claims about them.

Numbers: silo quantities are integers (`Int`), day offsets are `Nat`,
monetary amounts are exact rationals (`ℚ`).  The Python dict of silos
is an insertion-ordered association list; dict lookup is `lookupSilo`.
The `float('inf')` cost sentinel is the `Cost.infinite` constructor.
Dates are day numbers (`Int`); the string `'N/A'` delivery date is
`none`.
-/

/-- Embedding of class `SiloData` (src/app.py lines 21-35). -/
structure SiloData where
  name : String
  capacity : Int
  current_stock : Int
  daily_usage : Int
deriving Repr, DecidableEq, Inhabited

/-- Embedding of `SiloData.get_available_capacity`:
`projected_stock = max(0, current_stock - daily_usage * days_from_start)`,
result `capacity - projected_stock`. -/
def SiloData.get_available_capacity (s : SiloData) (days_from_start : Nat) : Int :=
  let projected_stock := max 0 (s.current_stock - s.daily_usage * (days_from_start : Int))
  s.capacity - projected_stock

/-- Embedding of `SiloData.is_available`:
`get_available_capacity(days_from_start) >= required_capacity`. -/
def SiloData.is_available (s : SiloData) (days_from_start : Nat) (required_capacity : Int) : Bool :=
  decide (s.get_available_capacity days_from_start ≥ required_capacity)

/-- C4: available_capacity follows the clamped-stock formula; the
round-trip values for capacity 5000, stock 2000, usage 200 are 3000 /
4000 / 5000 at offsets 0 / 5 / 10; and for a well-formed silo
(non-negative stock not exceeding capacity) the offset-0 value is
capacity minus current stock. -/
theorem get_available_capacity_values (s : SiloData) (d : Nat) :
    s.get_available_capacity d
        = s.capacity - max 0 (s.current_stock - s.daily_usage * (d : Int)) ∧
    (SiloData.mk "X" 5000 2000 200).get_available_capacity 0 = 3000 ∧
    (SiloData.mk "X" 5000 2000 200).get_available_capacity 5 = 4000 ∧
    (SiloData.mk "X" 5000 2000 200).get_available_capacity 10 = 5000 ∧
    (0 ≤ s.current_stock → s.current_stock ≤ s.capacity →
      s.get_available_capacity 0 = s.capacity - s.current_stock) := by
  refine ⟨rfl, by decide, by decide, by decide, fun h0 _hc => ?_⟩
  simp only [SiloData.get_available_capacity]
  omega

/-- Witness for C4 at the concrete round-trip silo. -/
theorem get_available_capacity_values_witness :
    (SiloData.mk "X" 5000 2000 200).get_available_capacity 0 = 5000 - 2000 :=
  (get_available_capacity_values (SiloData.mk "X" 5000 2000 200) 0).2.2.2.2
    (by decide) (by decide)

/-- C5 counterexample: a silo with non-negative capacity, stock and
usage whose available capacity is negative (stock exceeds capacity, a
case the code does not clamp). -/
theorem available_capacity_negative_cex :
    0 ≤ (SiloData.mk "C" 0 5 0).capacity ∧
    0 ≤ (SiloData.mk "C" 0 5 0).current_stock ∧
    0 ≤ (SiloData.mk "C" 0 5 0).daily_usage ∧
    (SiloData.mk "C" 0 5 0).get_available_capacity 0 < 0 := by
  decide

/-- C5 (amended): for a silo with non-negative capacity, stock and
usage, available capacity is non-decreasing in the day offset and never
exceeds capacity; it is never negative provided additionally the
current stock does not exceed the capacity. -/
theorem available_capacity_monotone_bounds (s : SiloData)
    (_h1 : 0 ≤ s.capacity) (h2 : 0 ≤ s.current_stock) (h3 : 0 ≤ s.daily_usage) :
    (∀ d d' : Nat, d ≤ d' →
      s.get_available_capacity d ≤ s.get_available_capacity d') ∧
    (∀ d : Nat, s.get_available_capacity d ≤ s.capacity) ∧
    (s.current_stock ≤ s.capacity → ∀ d : Nat, 0 ≤ s.get_available_capacity d) := by
  refine ⟨fun d d' hdd => ?_, fun d => ?_, fun hsc d => ?_⟩
  · simp only [SiloData.get_available_capacity]
    have hmul : s.daily_usage * (d : Int) ≤ s.daily_usage * (d' : Int) := by
      apply mul_le_mul_of_nonneg_left _ h3
      exact_mod_cast hdd
    omega
  · simp only [SiloData.get_available_capacity]
    omega
  · simp only [SiloData.get_available_capacity]
    have hmul : 0 ≤ s.daily_usage * (d : Int) :=
      mul_nonneg h3 (by positivity)
    omega

/-- Witness for C5's amended theorem at a concrete silo. -/
theorem available_capacity_monotone_bounds_witness :
    (SiloData.mk "X" 5000 2000 200).get_available_capacity 0
      ≤ (SiloData.mk "X" 5000 2000 200).get_available_capacity 5 :=
  (available_capacity_monotone_bounds (SiloData.mk "X" 5000 2000 200)
    (by decide) (by decide) (by decide)).1 0 5 (by decide)

/-- C7: is_available answers exactly the comparison
`available_capacity(d) ≥ required`, and it depends only on the silo's
numeric attributes (not on its name), hence is a pure deterministic
function of the attributes and the arguments. -/
theorem is_available_spec (s : SiloData) (d : Nat) (r : Int) :
    (s.is_available d r = true ↔ s.get_available_capacity d ≥ r) ∧
    (∀ s' : SiloData, s.capacity = s'.capacity → s.current_stock = s'.current_stock →
      s.daily_usage = s'.daily_usage → s.is_available d r = s'.is_available d r) := by
  constructor
  · simp [SiloData.is_available]
  · intro s' hc hs hu
    simp [SiloData.is_available, SiloData.get_available_capacity, hc, hs, hu]

/-- Witness for C7 at a concrete silo pair differing only in name. -/
theorem is_available_spec_witness :
    (SiloData.mk "X" 5000 2000 200).is_available 0 1000
      = (SiloData.mk "Y" 5000 2000 200).is_available 0 1000 :=
  (is_available_spec (SiloData.mk "X" 5000 2000 200) 0 1000).2
    (SiloData.mk "Y" 5000 2000 200) rfl rfl rfl

/-- Embedding of `itertools.combinations(l, k)`: all length-`k`
subsequences of `l`, in the same order the Python iterator emits them. -/
def combinations {α : Type} : List α → Nat → List (List α)
  | _, 0 => [[]]
  | [], _ + 1 => []
  | x :: xs, k + 1 =>
      ((combinations xs k).map (fun c => x :: c)) ++ combinations xs (k + 1)

/-- All ways to pick one element out of a list, each paired with the
remaining elements in order (helper for the permutation enumeration). -/
def selects {α : Type} : List α → List (α × List α)
  | [] => []
  | x :: xs => (x, xs) :: (selects xs).map (fun p => (p.1, x :: p.2))

/-- Fuel-indexed enumeration of all orderings of a list; with fuel at
least the list's length it enumerates every permutation, in the order
`itertools.permutations` emits them. -/
def permutationsAux {α : Type} : Nat → List α → List (List α)
  | _, [] => [[]]
  | 0, _ :: _ => []
  | fuel + 1, x :: xs =>
      (selects (x :: xs)).flatMap (fun p => (permutationsAux fuel p.2).map (fun q => p.1 :: q))

/-- Embedding of `itertools.permutations(l)` (full-length orderings). -/
def permutations {α : Type} (l : List α) : List (List α) :=
  permutationsAux l.length l

/-- Exchange-rate collaborator `get_usd_jpy_rate` (fixed demo value). -/
def get_usd_jpy_rate : ℚ := 150

/-- Cost values: a finite amount, or the `float('inf')` sentinel that
the evaluator assigns to infeasible routes. -/
inductive Cost where
  | finite (v : ℚ)
  | infinite
deriving Repr, DecidableEq

instance : Inhabited Cost := ⟨Cost.finite 0⟩

/-- One per-stop detail record appended by `evaluate_route` (the Python
dict with keys berth, delivery date, delivered amount, available
capacity, executable). -/
structure DetailEntry where
  berth : String
  delivery_date : Option Int
  delivery_amount : Int
  available_capacity : Int
  executable : Bool
deriving Repr, DecidableEq

instance : Inhabited DetailEntry := ⟨⟨"", none, 0, 0, false⟩⟩

/-- The evaluation result dict returned by `evaluate_route`. -/
structure RouteResult where
  route : List String
  total_cost_usd : Cost
  total_cost_jpy : Cost
  feasible : Bool
  details : List DetailEntry
deriving Repr, DecidableEq

instance : Inhabited RouteResult := ⟨⟨[], Cost.finite 0, Cost.finite 0, false, []⟩⟩

/-- Embedding of class `RouteOptimizer`'s constructor state: the silo
dict (insertion-ordered association list) and the two cost settings. -/
structure RouteOptimizer where
  silos : List (String × SiloData)
  berth_change_cost_usd : ℚ
  delivery_capacity_per_berth : Int
deriving Repr

/-- Python dict lookup `silos[name]` on the association list (`none`
models a KeyError). -/
def lookupSilo : List (String × SiloData) → String → Option SiloData
  | [], _ => none
  | (k, v) :: rest, nm => if k = nm then some v else lookupSilo rest nm

/-- Total accessor for a silo known to be present. -/
def getSilo (silos : List (String × SiloData)) (nm : String) : SiloData :=
  (lookupSilo silos nm).getD default

/-- Embedding of `RouteOptimizer.generate_route_plans`: for
`num_berths` in Python's `range(1, min(max_berth_changes + 2,
len(silo_names) + 1))`, every permutation of every combination of
`num_berths` silo names, appended in loop order. -/
def RouteOptimizer.generate_route_plans (opt : RouteOptimizer)
    (max_berth_changes : Nat) : List (List String) :=
  let silo_names := opt.silos.map Prod.fst
  (List.range' 1 (min (max_berth_changes + 2) (silo_names.length + 1) - 1)).flatMap
    (fun num_berths =>
      (combinations silo_names num_berths).flatMap
        (fun berth_combination => permutations berth_combination))

/-- Lists of length one from combinations of size one. -/
theorem combinations_one {α : Type} (l : List α) :
    combinations l 1 = l.map (fun x => [x]) := by
  induction l with
  | nil => rfl
  | cons x xs ih => simp [combinations, ih]

/-- C8: route generation signals no error on degenerate input: an empty
silo mapping yields an empty plan list for every bound, and bound 0
yields exactly one single-berth route per silo name, hence as many
routes as silos. -/
theorem generate_route_plans_degenerate :
    (∀ (c : ℚ) (dcap : Int) (k : Nat),
      (RouteOptimizer.mk [] c dcap).generate_route_plans k = []) ∧
    (∀ opt : RouteOptimizer,
      opt.generate_route_plans 0
          = (opt.silos.map Prod.fst).map (fun nm => [nm]) ∧
      (opt.generate_route_plans 0).length = opt.silos.length) := by
  constructor
  · intro c dcap k
    simp [RouteOptimizer.generate_route_plans]
  · intro opt
    have hmain : opt.generate_route_plans 0
        = (opt.silos.map Prod.fst).map (fun nm => [nm]) := by
      simp only [RouteOptimizer.generate_route_plans]
      cases hs : opt.silos.map Prod.fst with
      | nil => simp
      | cons x xs =>
          have hbound : min (0 + 2) ((x :: xs).length + 1) - 1 = 1 := by
            simp [List.length_cons]
          rw [hbound]
          have hrange : List.range' 1 1 = [1] := rfl
          rw [hrange]
          simp only [List.flatMap_cons, List.flatMap_nil, List.append_nil, combinations_one]
          induction (x :: xs) with
          | nil => rfl
          | cons y ys ihy =>
              simp only [List.map_cons, List.flatMap_cons, ihy]
              rfl
    refine ⟨hmain, ?_⟩
    rw [hmain]
    simp

/-- Membership in the combination list: exactly the length-`k`
subsequences. -/
theorem mem_combinations {α : Type} :
    ∀ (l : List α) (k : Nat) (c : List α),
      c ∈ combinations l k ↔ c.Sublist l ∧ c.length = k := by
  intro l
  induction l with
  | nil =>
      intro k c
      cases k with
      | zero =>
          simp only [combinations, List.mem_singleton, List.sublist_nil]
          constructor
          · rintro rfl; exact ⟨rfl, rfl⟩
          · rintro ⟨rfl, _⟩; rfl
      | succ k =>
          simp only [combinations, List.not_mem_nil, false_iff, not_and, List.sublist_nil]
          rintro rfl
          simp
  | cons x xs ih =>
      intro k c
      cases k with
      | zero =>
          simp only [combinations, List.mem_singleton]
          constructor
          · rintro rfl; exact ⟨List.nil_sublist _, rfl⟩
          · rintro ⟨_, hl⟩
            exact List.length_eq_zero.mp hl
      | succ k =>
          simp only [combinations, List.mem_append, List.mem_map]
          constructor
          · rintro (⟨c', hc', rfl⟩ | hc)
            · obtain ⟨hs, hl⟩ := (ih k c').mp hc'
              exact ⟨hs.cons₂ x, by simp [hl]⟩
            · obtain ⟨hs, hl⟩ := (ih (k + 1) c).mp hc
              exact ⟨hs.cons x, hl⟩
          · rintro ⟨hs, hl⟩
            rcases List.sublist_cons_iff.mp hs with h | ⟨r, rfl, hr⟩
            · exact Or.inr ((ih (k + 1) c).mpr ⟨h, hl⟩)
            · refine Or.inl ⟨r, (ih k r).mpr ⟨hr, ?_⟩, rfl⟩
              simpa using hl

/-- The combination list has `choose` many entries. -/
theorem length_combinations {α : Type} :
    ∀ (l : List α) (k : Nat), (combinations l k).length = l.length.choose k := by
  intro l
  induction l with
  | nil =>
      intro k
      cases k <;> rfl
  | cons x xs ih =>
      intro k
      cases k with
      | zero => rfl
      | succ k =>
          simp [combinations, ih, Nat.choose_succ_succ]

/-- Distinct source elements give a duplicate-free combination list. -/
theorem nodup_combinations {α : Type} :
    ∀ (l : List α) (k : Nat), l.Nodup → (combinations l k).Nodup := by
  intro l
  induction l with
  | nil =>
      intro k _
      cases k with
      | zero => exact List.nodup_singleton _
      | succ k => exact List.nodup_nil
  | cons x xs ih =>
      intro k hnd
      obtain ⟨hx, hxs⟩ := List.nodup_cons.mp hnd
      cases k with
      | zero => exact List.nodup_singleton _
      | succ k =>
          refine List.Nodup.append ((ih k hxs).map List.cons_injective) (ih (k + 1) hxs) ?_
          intro c hc1 hc2
          obtain ⟨c', _, rfl⟩ := List.mem_map.mp hc1
          have hs : (x :: c').Sublist xs := (mem_combinations xs (k + 1) _).mp hc2 |>.1
          exact hx (hs.subset (List.mem_cons_self x c'))

/-- The select list has one entry per position. -/
theorem length_selects {α : Type} : ∀ (l : List α), (selects l).length = l.length := by
  intro l
  induction l with
  | nil => rfl
  | cons x xs ih => simp [selects, ih]

/-- Membership in the select list: the chosen element together with the
other elements in order, for every way of splitting the list. -/
theorem mem_selects {α : Type} :
    ∀ (l : List α) (y : α) (r : List α),
      (y, r) ∈ selects l ↔ ∃ l₁ l₂, l = l₁ ++ y :: l₂ ∧ r = l₁ ++ l₂ := by
  intro l
  induction l with
  | nil =>
      intro y r
      constructor
      · intro h
        exact absurd h (List.not_mem_nil _)
      · rintro ⟨l₁, l₂, h, -⟩
        exact absurd (List.append_eq_nil.mp h.symm).2 (List.cons_ne_nil y l₂)
  | cons x xs ih =>
      intro y r
      constructor
      · intro h
        rcases List.mem_cons.mp h with h | h
        · have h1 : y = x := congrArg Prod.fst h
          have h2 : r = xs := congrArg Prod.snd h
          subst h1
          subst h2
          exact ⟨[], _, rfl, rfl⟩
        · obtain ⟨⟨y', r'⟩, hq, hEq⟩ := List.mem_map.mp h
          have h1 : y' = y := congrArg Prod.fst hEq
          have h2 : x :: r' = r := congrArg Prod.snd hEq
          subst h1
          subst h2
          obtain ⟨m₁, m₂, hxs, hr'⟩ := (ih y' r').mp hq
          subst hxs
          subst hr'
          exact ⟨x :: m₁, m₂, rfl, rfl⟩
      · rintro ⟨l₁, l₂, h1, h2⟩
        cases l₁ with
        | nil =>
            simp only [List.nil_append] at h1 h2
            injection h1 with h1a h1b
            subst h1a
            subst h1b
            subst h2
            exact List.mem_cons_self _ _
        | cons z m₁ =>
            simp only [List.cons_append] at h1 h2
            injection h1 with h1a h1b
            subst h1a
            subst h2
            have hmem : (y, m₁ ++ l₂) ∈ selects xs :=
              (ih y (m₁ ++ l₂)).mpr ⟨m₁, l₂, h1b, rfl⟩
            exact List.mem_cons.mpr (Or.inr (List.mem_map.mpr ⟨(y, m₁ ++ l₂), hmem, rfl⟩))

/-- A selected pair keeps all but one element. -/
theorem mem_selects_snd_length {α : Type} {l : List α} {p : α × List α}
    (h : p ∈ selects l) : p.2.length + 1 = l.length := by
  obtain ⟨y, r⟩ := p
  obtain ⟨l₁, l₂, rfl, rfl⟩ := (mem_selects l y r).mp h
  simp [Nat.add_comm, Nat.add_assoc, Nat.add_left_comm]

/-- The rest of a selected pair is a subsequence of the original list. -/
theorem mem_selects_snd_sublist {α : Type} {l : List α} {p : α × List α}
    (h : p ∈ selects l) : p.2.Sublist l := by
  obtain ⟨y, r⟩ := p
  obtain ⟨l₁, l₂, rfl, rfl⟩ := (mem_selects l y r).mp h
  exact (List.sublist_cons_self y l₂).append_left l₁

/-- On a duplicate-free list, distinct select entries choose distinct
elements. -/
theorem pairwise_fst_selects {α : Type} :
    ∀ (l : List α), l.Nodup → (selects l).Pairwise (fun p q => p.1 ≠ q.1) := by
  intro l
  induction l with
  | nil => intro _; exact List.Pairwise.nil
  | cons x xs ih =>
      intro hnd
      obtain ⟨hx, hxs⟩ := List.nodup_cons.mp hnd
      refine List.Pairwise.cons ?_ ?_
      · intro q hq
        obtain ⟨q', hq', rfl⟩ := List.mem_map.mp hq
        obtain ⟨y, r⟩ := q'
        have hy : y ∈ xs := by
          obtain ⟨l₁, l₂, h, -⟩ := (mem_selects xs y r).mp hq'
          rw [h]
          exact List.mem_append_right l₁ (List.mem_cons_self y l₂)
        intro hxy
        exact hx (by rw [show x = y from hxy]; exact hy)
      · rw [List.pairwise_map]
        exact ih hxs

/-- The enumeration of the empty list is the single empty ordering, at
any fuel. -/
theorem permutationsAux_nil {α : Type} (fuel : Nat) :
    permutationsAux fuel ([] : List α) = [[]] := by
  cases fuel <;> rfl

/-- Helper: the sum of a map that is constant on the list's members. -/
theorem sum_map_const_of_mem {α : Type} :
    ∀ (l : List α) (f : α → Nat) (m : Nat),
      (∀ a ∈ l, f a = m) → (l.map f).sum = l.length * m := by
  intro l
  induction l with
  | nil => intro f m _; simp
  | cons x xs ih =>
      intro f m h
      simp only [List.map_cons, List.sum_cons, List.length_cons,
        h x (List.mem_cons_self x xs), ih f m fun a ha => h a (List.mem_cons.mpr (Or.inr ha))]
      ring

/-- With enough fuel, the ordering enumeration has factorially many
entries. -/
theorem length_permutationsAux {α : Type} :
    ∀ (fuel : Nat) (l : List α), l.length ≤ fuel →
      (permutationsAux fuel l).length = l.length.factorial := by
  intro fuel
  induction fuel with
  | zero =>
      intro l hl
      have : l = [] := List.eq_nil_of_length_eq_zero (Nat.le_zero.mp hl)
      subst this
      rfl
  | succ fuel ih =>
      intro l hl
      cases l with
      | nil => rfl
      | cons x xs =>
          simp only [permutationsAux, List.length_flatMap]
          have hconst : ∀ p ∈ selects (x :: xs),
              ((fun p => (permutationsAux fuel p.2).map (fun q => p.1 :: q)) p).length
                = xs.length.factorial := by
            intro p hp
            have hlen : p.2.length = xs.length := by
              have := mem_selects_snd_length hp
              simp only [List.length_cons] at this
              omega
            have hfuel : p.2.length ≤ fuel := by
              rw [hlen]
              exact Nat.lt_succ_iff.mp (Nat.lt_of_lt_of_le (Nat.lt_succ_self _) hl)
            simp [ih p.2 hfuel, hlen]
          calc ((selects (x :: xs)).map
                  (List.length ∘ fun p => (permutationsAux fuel p.2).map (fun q => p.1 :: q))).sum
              = (selects (x :: xs)).length * xs.length.factorial := by
                apply sum_map_const_of_mem
                intro p hp
                exact hconst p hp
            _ = (x :: xs).length.factorial := by
                rw [length_selects, List.length_cons, Nat.factorial_succ]

/-- With enough fuel, the ordering enumeration contains exactly the
permutations of the list. -/
theorem mem_permutationsAux {α : Type} [DecidableEq α] :
    ∀ (fuel : Nat) (l r : List α), l.length ≤ fuel →
      (r ∈ permutationsAux fuel l ↔ r.Perm l) := by
  intro fuel
  induction fuel with
  | zero =>
      intro l r hl
      have : l = [] := List.eq_nil_of_length_eq_zero (Nat.le_zero.mp hl)
      subst this
      simp [permutationsAux_nil, List.perm_nil]
  | succ fuel ih =>
      intro l r hl
      cases l with
      | nil => simp [permutationsAux_nil, List.perm_nil]
      | cons x xs =>
          simp only [permutationsAux, List.mem_flatMap, List.mem_map]
          constructor
          · rintro ⟨p, hp, q, hq, rfl⟩
            have hlen : p.2.length = xs.length := by
              have := mem_selects_snd_length hp
              simp only [List.length_cons] at this
              omega
            have hfuel : p.2.length ≤ fuel := by
              rw [hlen]
              exact Nat.lt_succ_iff.mp (Nat.lt_of_lt_of_le (Nat.lt_succ_self _) hl)
            have hqp : q.Perm p.2 := (ih p.2 q hfuel).mp hq
            obtain ⟨y, r'⟩ := p
            obtain ⟨l₁, l₂, hsplit, hrest⟩ := (mem_selects (x :: xs) y r').mp hp
            have hq2 : q.Perm (l₁ ++ l₂) := by
              rw [← hrest]
              exact hqp
            have hy : (y :: q).Perm (l₁ ++ y :: l₂) :=
              (hq2.cons y).trans List.perm_middle.symm
            rw [hsplit]
            exact hy
          · intro hr
            cases r with
            | nil =>
                have := hr.length_eq
                simp at this
            | cons y q =>
                have hy : y ∈ x :: xs := hr.subset (List.mem_cons_self y q)
                obtain ⟨l₁, l₂, -, hsplit, herase⟩ := List.exists_erase_eq hy
                have hq : q.Perm ((x :: xs).erase y) :=
                  (List.cons_perm_iff_perm_erase.mp hr).2
                have hqrest : q.Perm (l₁ ++ l₂) := herase ▸ hq
                have hmem : (y, l₁ ++ l₂) ∈ selects (x :: xs) :=
                  (mem_selects (x :: xs) y (l₁ ++ l₂)).mpr ⟨l₁, l₂, hsplit, rfl⟩
                have hfuel : (l₁ ++ l₂).length ≤ fuel := by
                  have h1 := congrArg List.length hsplit
                  simp only [List.length_cons, List.length_append] at h1 hl ⊢
                  omega
                exact ⟨(y, l₁ ++ l₂), hmem, q, (ih _ q hfuel).mpr hqrest, rfl⟩

/-- With enough fuel, a duplicate-free list yields a duplicate-free
ordering enumeration. -/
theorem nodup_permutationsAux {α : Type} :
    ∀ (fuel : Nat) (l : List α), l.Nodup → l.length ≤ fuel →
      (permutationsAux fuel l).Nodup := by
  intro fuel
  induction fuel with
  | zero =>
      intro l _ hl
      have : l = [] := List.eq_nil_of_length_eq_zero (Nat.le_zero.mp hl)
      subst this
      exact List.nodup_singleton _
  | succ fuel ih =>
      intro l hnd hl
      cases l with
      | nil => exact List.nodup_singleton _
      | cons x xs =>
          simp only [permutationsAux]
          rw [List.nodup_flatMap]
          constructor
          · intro p hp
            have hsub : p.2.Sublist (x :: xs) := mem_selects_snd_sublist hp
            have hfuel : p.2.length ≤ fuel := by
              have := mem_selects_snd_length hp
              simp only [List.length_cons] at this hl
              omega
            exact (ih p.2 (hnd.sublist hsub) hfuel).map List.cons_injective
          · refine (pairwise_fst_selects (x :: xs) hnd).imp ?_
            intro p q hpq r hr1 hr2
            obtain ⟨r1, -, rfl⟩ := List.mem_map.mp hr1
            obtain ⟨r2, -, hEq⟩ := List.mem_map.mp hr2
            exact hpq (List.head_eq_of_cons_eq hEq.symm)

/-- The full-length enumeration has factorially many entries. -/
theorem permutations_length {α : Type} (l : List α) :
    (permutations l).length = l.length.factorial :=
  length_permutationsAux l.length l le_rfl

/-- The full-length enumeration contains exactly the permutations. -/
theorem mem_permutations_iff {α : Type} [DecidableEq α] (l r : List α) :
    r ∈ permutations l ↔ r.Perm l :=
  mem_permutationsAux l.length l r le_rfl

/-- The full-length enumeration of a duplicate-free list is
duplicate-free. -/
theorem permutations_nodup {α : Type} {l : List α} (h : l.Nodup) :
    (permutations l).Nodup :=
  nodup_permutationsAux l.length l h le_rfl

/-- Two subsequences of a duplicate-free list that are permutations of
one another are equal. -/
theorem sublist_perm_eq {α : Type} :
    ∀ (names c c' : List α), names.Nodup →
      c.Sublist names → c'.Sublist names → c.Perm c' → c = c' := by
  intro names
  induction names with
  | nil =>
      intro c c' _ hc hc' _
      rw [List.sublist_nil.mp hc, List.sublist_nil.mp hc']
  | cons x t ih =>
      intro c c' hnd hc hc' hp
      obtain ⟨hx, ht⟩ := List.nodup_cons.mp hnd
      rcases List.sublist_cons_iff.mp hc with h | ⟨r, rfl, hr⟩
      · rcases List.sublist_cons_iff.mp hc' with h' | ⟨r', rfl, hr'⟩
        · exact ih c c' ht h h' hp
        · exact absurd (h.subset (hp.mem_iff.mpr (List.mem_cons_self x r'))) hx
      · rcases List.sublist_cons_iff.mp hc' with h' | ⟨r', rfl, hr'⟩
        · exact absurd (h'.subset (hp.mem_iff.mp (List.mem_cons_self x r))) hx
        · rw [ih r r' ht hr hr' hp.cons_inv]

/-- Sum of a function over Python's `range(1, K + 1)` equals the
closed-interval finite sum. -/
theorem sum_map_range_one (f : Nat → Nat) :
    ∀ K : Nat, ((List.range' 1 K).map f).sum = ∑ j ∈ Finset.Icc 1 K, f j := by
  intro K
  induction K with
  | zero => simp
  | succ K ih =>
      rw [List.range'_concat, List.map_append, List.sum_append,
        Finset.sum_Icc_succ_top (by omega : 1 ≤ K + 1), ih]
      simp [Nat.add_comm]

/-- Unfolding of route generation to the normalized berth-count range
`[1, min(max_berth_changes + 1, n)]`. -/
theorem generate_route_plans_eq (opt : RouteOptimizer) (m : Nat) :
    opt.generate_route_plans m
      = (List.range' 1 (min (m + 1) (opt.silos.map Prod.fst).length)).flatMap
          (fun j => (combinations (opt.silos.map Prod.fst) j).flatMap
            (fun berth_combination => permutations berth_combination)) := by
  simp only [RouteOptimizer.generate_route_plans]
  have hb : min (m + 2) ((opt.silos.map Prod.fst).length + 1) - 1
      = min (m + 1) (opt.silos.map Prod.fst).length := by
    omega
  rw [hb]

/-- C3: route generation emits exactly the nonempty orderings of
subsequences of the silo-name list with at most `min(k + 1, n)` berths
(every permutation of every combination); with distinct names the plan
list is duplicate-free; its length is the claimed binomial-factorial
sum; for three silos and bound one that sum is nine; and the count
saturates once the bound reaches `n - 1`. -/
theorem generate_route_plans_spec (opt : RouteOptimizer) (k : Nat)
    (hnd : (opt.silos.map Prod.fst).Nodup) :
    (∀ r : List String, r ∈ opt.generate_route_plans k ↔
      (1 ≤ r.length ∧ r.length ≤ min (k + 1) (opt.silos.map Prod.fst).length ∧
        ∃ c : List String, c.Sublist (opt.silos.map Prod.fst) ∧ r.Perm c)) ∧
    (opt.generate_route_plans k).Nodup ∧
    (opt.generate_route_plans k).length
        = ∑ j ∈ Finset.Icc 1 (min (k + 1) (opt.silos.map Prod.fst).length),
            ((opt.silos.map Prod.fst).length.choose j) * j.factorial ∧
    ((opt.silos.map Prod.fst).length = 3 → k = 1 →
      (opt.generate_route_plans k).length = 9) ∧
    ((opt.silos.map Prod.fst).length - 1 ≤ k →
      (opt.generate_route_plans k).length
        = (opt.generate_route_plans ((opt.silos.map Prod.fst).length - 1)).length) := by
  have hcount : (opt.generate_route_plans k).length
      = ∑ j ∈ Finset.Icc 1 (min (k + 1) (opt.silos.map Prod.fst).length),
          ((opt.silos.map Prod.fst).length.choose j) * j.factorial := by
    rw [generate_route_plans_eq, List.length_flatMap]
    have hmap : (List.range' 1 (min (k + 1) (opt.silos.map Prod.fst).length)).map
          (List.length ∘ fun j => (combinations (opt.silos.map Prod.fst) j).flatMap
            (fun berth_combination => permutations berth_combination))
        = (List.range' 1 (min (k + 1) (opt.silos.map Prod.fst).length)).map
            (fun j => ((opt.silos.map Prod.fst).length.choose j) * j.factorial) := by
      apply List.map_congr_left
      intro j _
      simp only [Function.comp_apply, List.length_flatMap]
      rw [sum_map_const_of_mem (combinations (opt.silos.map Prod.fst) j) _ j.factorial ?_,
        length_combinations]
      intro c hc
      simp only [Function.comp_apply]
      rw [permutations_length, ((mem_combinations _ j c).mp hc).2]
    rw [hmap, sum_map_range_one]
  refine ⟨?_, ?_, hcount, ?_, ?_⟩
  · intro r
    rw [generate_route_plans_eq]
    simp only [List.mem_flatMap, List.mem_range'_1]
    constructor
    · rintro ⟨j, ⟨hj1, hj2⟩, c, hc, hrc⟩
      obtain ⟨hcs, hcl⟩ := (mem_combinations _ j c).mp hc
      have hperm : r.Perm c := (mem_permutations_iff c r).mp hrc
      have hlen : r.length = j := by rw [hperm.length_eq, hcl]
      exact ⟨by omega, by omega, c, hcs, hperm⟩
    · rintro ⟨h1, h2, c, hcs, hperm⟩
      exact ⟨r.length, ⟨h1, by omega⟩, c,
        (mem_combinations _ _ c).mpr ⟨hcs, hperm.length_eq.symm⟩,
        (mem_permutations_iff c r).mpr hperm⟩
  · rw [generate_route_plans_eq, List.nodup_flatMap]
    constructor
    · intro j _
      rw [List.nodup_flatMap]
      constructor
      · intro c hc
        exact permutations_nodup (hnd.sublist ((mem_combinations _ j c).mp hc).1)
      · apply List.Pairwise.imp_of_mem ?_ (nodup_combinations _ j hnd)
        intro c c' hcmem hcmem' hne
        simp only [Function.onFun]
        intro r hr1 hr2
        have hp1 := (mem_permutations_iff c r).mp hr1
        have hp2 := (mem_permutations_iff c' r).mp hr2
        exact hne (sublist_perm_eq _ c c' hnd ((mem_combinations _ j c).mp hcmem).1
          ((mem_combinations _ j c').mp hcmem').1 (hp1.symm.trans hp2))
    · apply List.Pairwise.imp_of_mem ?_ (List.nodup_range' 1 _)
      intro j j' _ _ hne
      simp only [Function.onFun]
      intro r hr1 hr2
      obtain ⟨c, hc, hrc⟩ := List.mem_flatMap.mp hr1
      obtain ⟨c', hc', hrc'⟩ := List.mem_flatMap.mp hr2
      have h1 : r.length = j := by
        rw [((mem_permutations_iff c r).mp hrc).length_eq, ((mem_combinations _ j c).mp hc).2]
      have h2 : r.length = j' := by
        rw [((mem_permutations_iff c' r).mp hrc').length_eq,
          ((mem_combinations _ j' c').mp hc').2]
      exact hne (h1 ▸ h2)
  · intro hn3 hk1
    subst hk1
    rw [hcount, hn3]
    decide
  · intro hsat
    rw [generate_route_plans_eq opt k,
      generate_route_plans_eq opt ((opt.silos.map Prod.fst).length - 1)]
    have hb : min (k + 1) (opt.silos.map Prod.fst).length
        = min ((opt.silos.map Prod.fst).length - 1 + 1) (opt.silos.map Prod.fst).length := by
      omega
    rw [hb]

/-- Embedding of the loop body of `RouteOptimizer.evaluate_route`
(src/app.py lines 62-99): state is the remaining route suffix, the
enumeration index `i`, the accumulated `total_cost`, the simulated
`current_day`, and the detail list built so far.  The silo dict is
threaded through unchanged (the Python loop never assigns to it); a
missing berth name is a KeyError, modelled by `none`. -/
def evaluateRouteLoop (berth_change_cost_usd : ℚ) (delivery_capacity_per_berth : Int)
    (route : List String) (start_date : Int) (silos : List (String × SiloData)) :
    List String → Nat → ℚ → Nat → List DetailEntry →
      Option RouteResult × List (String × SiloData)
  | [], _i, total_cost, _current_day, results =>
      (some { route := route
              total_cost_usd := Cost.finite total_cost
              total_cost_jpy := Cost.finite (total_cost * get_usd_jpy_rate)
              feasible := true
              details := results }, silos)
  | berth_name :: rest, i, total_cost, current_day, results =>
      let total_cost1 := if 0 < i then total_cost + berth_change_cost_usd else total_cost
      match lookupSilo silos berth_name with
      | none => (none, silos)
      | some silo =>
          if silo.is_available current_day delivery_capacity_per_berth then
            evaluateRouteLoop berth_change_cost_usd delivery_capacity_per_berth
              route start_date silos rest (i + 1) total_cost1 (current_day + 1)
              (results ++ [{ berth := berth_name
                             delivery_date := some (start_date + (current_day : Int))
                             delivery_amount := min delivery_capacity_per_berth
                               (silo.get_available_capacity current_day)
                             available_capacity := silo.get_available_capacity current_day
                             executable := true }])
          else
            (some { route := route
                    total_cost_usd := Cost.infinite
                    total_cost_jpy := Cost.infinite
                    feasible := false
                    details := results ++ [{ berth := berth_name
                                             delivery_date := none
                                             delivery_amount := 0
                                             available_capacity :=
                                               silo.get_available_capacity current_day
                                             executable := false }] }, silos)

/-- Embedding of `RouteOptimizer.evaluate_route`: run the loop from
index 0, day 0, zero cost and an empty detail list; the second
component is the silo dict after the call. -/
def RouteOptimizer.evaluate_route (opt : RouteOptimizer) (route : List String)
    (start_date : Int) : Option RouteResult × List (String × SiloData) :=
  evaluateRouteLoop opt.berth_change_cost_usd opt.delivery_capacity_per_berth
    route start_date opt.silos route 0 0 0 []

/-- How many berth-change charges the loop adds while consuming `len`
stops starting at enumeration index `i` (the first stop of a route is
free). -/
def chargeCount (i len : Nat) : Nat :=
  if i = 0 then len - 1 else len

/-- The detail entries an all-available suffix produces, starting at a
given day offset. -/
def feasDetails (silos : List (String × SiloData)) (delivery_capacity_per_berth : Int)
    (start_date : Int) : List String → Nat → List DetailEntry
  | [], _ => []
  | b :: bs, day =>
      { berth := b
        delivery_date := some (start_date + (day : Int))
        delivery_amount := min delivery_capacity_per_berth
          ((getSilo silos b).get_available_capacity day)
        available_capacity := (getSilo silos b).get_available_capacity day
        executable := true } ::
        feasDetails silos delivery_capacity_per_berth start_date bs (day + 1)

/-- A present key looks up to its total accessor value. -/
theorem lookupSilo_eq_getSilo {silos : List (String × SiloData)} {b : String}
    (h : (lookupSilo silos b).isSome = true) :
    lookupSilo silos b = some (getSilo silos b) := by
  cases hl : lookupSilo silos b with
  | none => rw [hl] at h; simp at h
  | some s => simp [getSilo, hl]

/-- Index membership gives list membership for the defaulted accessor. -/
theorem getD_mem_of_lt {l : List String} {j : Nat} (h : j < l.length) :
    l.getD j "" ∈ l := by
  rw [List.getD_eq_getElem _ _ h]
  exact List.getElem_mem h

/-- An empty suffix incurs no berth-change charges. -/
theorem chargeCount_zero (k : Nat) : chargeCount k 0 = 0 := by
  cases k <;> simp [chargeCount]

/-- The synthetic detail list has one entry per berth. -/
theorem feasDetails_length (silos : List (String × SiloData)) (dcap : Int) (sd : Int) :
    ∀ (bs : List String) (day : Nat),
      (feasDetails silos dcap sd bs day).length = bs.length := by
  intro bs
  induction bs with
  | nil => intro day; rfl
  | cons b bs ih => intro day; simp [feasDetails, ih]

/-- Entry `j` of the synthetic detail list describes berth `j` at day
offset `day + j`. -/
theorem feasDetails_getD (silos : List (String × SiloData)) (dcap : Int) (sd : Int) :
    ∀ (bs : List String) (day j : Nat), j < bs.length →
      (feasDetails silos dcap sd bs day).getD j default
        = { berth := bs.getD j ""
            delivery_date := some (sd + ((day + j : Nat) : Int))
            delivery_amount := min dcap
              ((getSilo silos (bs.getD j "")).get_available_capacity (day + j))
            available_capacity :=
              (getSilo silos (bs.getD j "")).get_available_capacity (day + j)
            executable := true } := by
  intro bs
  induction bs with
  | nil =>
      intro day j hj
      simp at hj
  | cons b bs ih =>
      intro day j hj
      cases j with
      | zero => simp [feasDetails]
      | succ j' =>
          simp only [feasDetails, List.getD_cons_succ, List.length_cons] at hj ⊢
          rw [ih (day + 1) j' (by omega)]
          have harith : day + 1 + j' = day + (j' + 1) := by omega
          rw [harith]

/-- The loop never changes the silo dict (no statement assigns to it). -/
theorem evaluateRouteLoop_snd (c : ℚ) (dcap : Int) (route : List String) (sd : Int)
    (silos : List (String × SiloData)) :
    ∀ (rest : List String) (i : Nat) (cost : ℚ) (day : Nat) (acc : List DetailEntry),
      (evaluateRouteLoop c dcap route sd silos rest i cost day acc).2 = silos := by
  intro rest
  induction rest with
  | nil => intro i cost day acc; rfl
  | cons b bs ih =>
      intro i cost day acc
      simp only [evaluateRouteLoop]
      cases lookupSilo silos b with
      | none => rfl
      | some silo =>
          by_cases hav : silo.is_available day dcap
          · simp only [hav, if_true]
            exact ih (i + 1) _ (day + 1) _
          · simp [hav]

/-- Loop characterization, all-available case: if every remaining stop
is available at its day offset, the loop returns a feasible result,
adds one berth-change charge per stop except a leading index-0 stop,
and appends one executable detail entry per stop. -/
theorem evaluateRouteLoop_all_avail (c : ℚ) (dcap : Int) (route : List String) (sd : Int)
    (silos : List (String × SiloData)) :
    ∀ (rest : List String) (k : Nat) (cost : ℚ) (acc : List DetailEntry),
      (∀ j, j < rest.length → (lookupSilo silos (rest.getD j "")).isSome = true) →
      (∀ j, j < rest.length →
        (getSilo silos (rest.getD j "")).is_available (k + j) dcap = true) →
      evaluateRouteLoop c dcap route sd silos rest k cost k acc
        = (some { route := route
                  total_cost_usd := Cost.finite (cost + (chargeCount k rest.length : ℚ) * c)
                  total_cost_jpy := Cost.finite
                    ((cost + (chargeCount k rest.length : ℚ) * c) * get_usd_jpy_rate)
                  feasible := true
                  details := acc ++ feasDetails silos dcap sd rest k }, silos) := by
  intro rest
  induction rest with
  | nil =>
      intro k cost acc _ _
      simp [evaluateRouteLoop, feasDetails, chargeCount_zero]
  | cons b bs ih =>
      intro k cost acc hmem havail
      have hlook : lookupSilo silos b = some (getSilo silos b) := by
        have := hmem 0 (by simp)
        simpa using lookupSilo_eq_getSilo this
      have h0 : (getSilo silos b).is_available k dcap = true := by
        have := havail 0 (by simp)
        simpa using this
      simp only [evaluateRouteLoop, hlook, h0, if_true]
      have hmem' : ∀ j, j < bs.length →
          (lookupSilo silos (bs.getD j "")).isSome = true := by
        intro j hj
        have := hmem (j + 1) (by simp; omega)
        simpa using this
      have havail' : ∀ j, j < bs.length →
          (getSilo silos (bs.getD j "")).is_available (k + 1 + j) dcap = true := by
        intro j hj
        have := havail (j + 1) (by simp; omega)
        rw [show k + 1 + j = k + (j + 1) by omega]
        simpa using this
      rw [ih (k + 1) (if 0 < k then cost + c else cost) _ hmem' havail']
      have hcost : (if 0 < k then cost + c else cost)
            + (chargeCount (k + 1) bs.length : ℚ) * c
          = cost + (chargeCount k (b :: bs).length : ℚ) * c := by
        rw [List.length_cons]
        by_cases hk : k = 0
        · subst hk
          simp [chargeCount]
        · have h0k : 0 < k := Nat.pos_of_ne_zero hk
          simp only [chargeCount, if_pos h0k, if_neg (by omega : ¬ k + 1 = 0), if_neg hk]
          push_cast
          ring
      rw [hcost]
      simp [feasDetails, List.append_assoc]

/-- Loop characterization, first-failure case: if the stops before
index `f` are available at their day offsets and stop `f` is not, the
loop stops at `f`, returns the infinite cost sentinel and an
infeasible flag, and the detail list gains the executable prefix
entries plus one non-executable entry for stop `f`. -/
theorem evaluateRouteLoop_first_fail (c : ℚ) (dcap : Int) (route : List String) (sd : Int)
    (silos : List (String × SiloData)) :
    ∀ (rest : List String) (k : Nat) (cost : ℚ) (acc : List DetailEntry) (f : Nat),
      f < rest.length →
      (∀ j, j ≤ f → (lookupSilo silos (rest.getD j "")).isSome = true) →
      (∀ j, j < f → (getSilo silos (rest.getD j "")).is_available (k + j) dcap = true) →
      (getSilo silos (rest.getD f "")).is_available (k + f) dcap = false →
      evaluateRouteLoop c dcap route sd silos rest k cost k acc
        = (some { route := route
                  total_cost_usd := Cost.infinite
                  total_cost_jpy := Cost.infinite
                  feasible := false
                  details := acc ++ feasDetails silos dcap sd (rest.take f) k
                    ++ [{ berth := rest.getD f ""
                          delivery_date := none
                          delivery_amount := 0
                          available_capacity :=
                            (getSilo silos (rest.getD f "")).get_available_capacity (k + f)
                          executable := false }] }, silos) := by
  intro rest
  induction rest with
  | nil =>
      intro k cost acc f hf _ _ _
      simp at hf
  | cons b bs ih =>
      intro k cost acc f hf hmem havail hfail
      cases f with
      | zero =>
          have hlook : lookupSilo silos b = some (getSilo silos b) := by
            have := hmem 0 (le_refl 0)
            simpa using lookupSilo_eq_getSilo this
          have h0 : (getSilo silos b).is_available k dcap = false := by
            have := hfail
            simpa using this
          simp [evaluateRouteLoop, hlook, h0, feasDetails]
      | succ f' =>
          have hlook : lookupSilo silos b = some (getSilo silos b) := by
            have := hmem 0 (by omega)
            simpa using lookupSilo_eq_getSilo this
          have h0 : (getSilo silos b).is_available k dcap = true := by
            have := havail 0 (by omega)
            simpa using this
          simp only [evaluateRouteLoop, hlook, h0, if_true]
          have hmem' : ∀ j, j ≤ f' → (lookupSilo silos (bs.getD j "")).isSome = true := by
            intro j hj
            have := hmem (j + 1) (by omega)
            simpa using this
          have havail' : ∀ j, j < f' →
              (getSilo silos (bs.getD j "")).is_available (k + 1 + j) dcap = true := by
            intro j hj
            have := havail (j + 1) (by omega)
            rw [show k + 1 + j = k + (j + 1) by omega]
            simpa using this
          have hfail' : (getSilo silos (bs.getD f' "")).is_available (k + 1 + f') dcap
              = false := by
            have := hfail
            rw [show k + 1 + f' = k + (f' + 1) by omega]
            simpa using this
          have hf' : f' < bs.length := by
            simp only [List.length_cons] at hf
            omega
          rw [ih (k + 1) (if 0 < k then cost + c else cost) _ f' hf' hmem' havail' hfail']
          have harith : k + 1 + f' = k + (f' + 1) := by omega
          simp [feasDetails, List.append_assoc, List.take_succ_cons, harith]

/-- Route-level all-available characterization, from the initial state
(index 0, day 0, zero cost, empty details). -/
theorem evaluate_route_all_avail (opt : RouteOptimizer) (route : List String) (sd : Int)
    (hmem : ∀ j, j < route.length →
      (lookupSilo opt.silos (route.getD j "")).isSome = true)
    (havail : ∀ j, j < route.length →
      (getSilo opt.silos (route.getD j "")).is_available j
        opt.delivery_capacity_per_berth = true) :
    opt.evaluate_route route sd
      = (some { route := route
                total_cost_usd := Cost.finite ((chargeCount 0 route.length : ℚ)
                  * opt.berth_change_cost_usd)
                total_cost_jpy := Cost.finite (((chargeCount 0 route.length : ℚ)
                  * opt.berth_change_cost_usd) * get_usd_jpy_rate)
                feasible := true
                details := feasDetails opt.silos opt.delivery_capacity_per_berth sd
                  route 0 }, opt.silos) := by
  simp only [RouteOptimizer.evaluate_route]
  rw [evaluateRouteLoop_all_avail opt.berth_change_cost_usd opt.delivery_capacity_per_berth
    route sd opt.silos route 0 0 [] hmem (by intro j hj; simpa using havail j hj)]
  simp

/-- Route-level first-failure characterization, from the initial
state. -/
theorem evaluate_route_fail_at (opt : RouteOptimizer) (route : List String) (sd : Int)
    (f : Nat) (hf : f < route.length)
    (hmem : ∀ j, j ≤ f → (lookupSilo opt.silos (route.getD j "")).isSome = true)
    (havail : ∀ j, j < f →
      (getSilo opt.silos (route.getD j "")).is_available j
        opt.delivery_capacity_per_berth = true)
    (hfail : (getSilo opt.silos (route.getD f "")).is_available f
        opt.delivery_capacity_per_berth = false) :
    opt.evaluate_route route sd
      = (some { route := route
                total_cost_usd := Cost.infinite
                total_cost_jpy := Cost.infinite
                feasible := false
                details := feasDetails opt.silos opt.delivery_capacity_per_berth sd
                    (route.take f) 0
                  ++ [{ berth := route.getD f ""
                        delivery_date := none
                        delivery_amount := 0
                        available_capacity :=
                          (getSilo opt.silos (route.getD f "")).get_available_capacity f
                        executable := false }] }, opt.silos) := by
  simp only [RouteOptimizer.evaluate_route]
  rw [evaluateRouteLoop_first_fail opt.berth_change_cost_usd opt.delivery_capacity_per_berth
    route sd opt.silos route 0 0 [] f hf hmem
    (by intro j hj; simpa using havail j hj) (by simpa using hfail)]
  simp

/-- C9: evaluating a route never mutates any silo: the silo dict after
the call is the one before it, so every silo's name, capacity, current
stock and daily usage are unchanged, feasible or not. -/
theorem evaluate_route_preserves_silos (opt : RouteOptimizer) (route : List String)
    (sd : Int) :
    (opt.evaluate_route route sd).2 = opt.silos ∧
    ((opt.evaluate_route route sd).2).map
        (fun p => (p.1, p.2.name, p.2.capacity, p.2.current_stock, p.2.daily_usage))
      = opt.silos.map
          (fun p => (p.1, p.2.name, p.2.capacity, p.2.current_stock, p.2.daily_usage)) := by
  have h : (opt.evaluate_route route sd).2 = opt.silos :=
    evaluateRouteLoop_snd opt.berth_change_cost_usd opt.delivery_capacity_per_berth
      route sd opt.silos route 0 0 0 []
  exact ⟨h, by rw [h]⟩

/-- Loop invariant behind C10: every executable detail entry the loop
ever emits records a delivered amount equal to the per-berth delivery
capacity. -/
theorem evaluateRouteLoop_executable_amount (c : ℚ) (dcap : Int) (route : List String)
    (sd : Int) (silos : List (String × SiloData)) :
    ∀ (rest : List String) (i : Nat) (cost : ℚ) (day : Nat) (acc : List DetailEntry),
      (∀ e ∈ acc, e.executable = true → e.delivery_amount = dcap) →
      ∀ r : RouteResult,
        (evaluateRouteLoop c dcap route sd silos rest i cost day acc).1 = some r →
        ∀ e ∈ r.details, e.executable = true → e.delivery_amount = dcap := by
  intro rest
  induction rest with
  | nil =>
      intro i cost day acc hacc r hr
      simp only [evaluateRouteLoop] at hr
      obtain rfl := Option.some.inj hr
      exact hacc
  | cons b bs ih =>
      intro i cost day acc hacc r hr
      simp only [evaluateRouteLoop] at hr
      cases hl : lookupSilo silos b with
      | none => rw [hl] at hr; simp at hr
      | some silo =>
          rw [hl] at hr
          by_cases hav : silo.is_available day dcap
          · simp only [hav, if_true] at hr
            refine ih (i + 1) _ (day + 1) _ ?_ r hr
            intro e he
            rcases List.mem_append.mp he with he | he
            · exact hacc e he
            · intro _
              have hge : dcap ≤ silo.get_available_capacity day := by
                have := hav
                simp only [SiloData.is_available, decide_eq_true_eq, ge_iff_le] at this
                exact this
              simp only [List.mem_singleton] at he
              subst he
              simpa using min_eq_left hge
          · simp only [hav, if_false] at hr
            obtain rfl := Option.some.inj hr
            intro e he hex
            rcases List.mem_append.mp he with he | he
            · exact hacc e he hex
            · simp only [List.mem_singleton] at he
              subst he
              simp at hex

/-- C10: in every result `evaluate_route` returns, each detail entry
recorded with executable = true delivers exactly the configured
per-berth delivery capacity (the min with available capacity never
reduces it, because the executable branch requires availability). -/
theorem executable_entries_full_delivery (opt : RouteOptimizer) (route : List String)
    (sd : Int) :
    ∀ e ∈ ((opt.evaluate_route route sd).1.getD default).details,
      e.executable = true → e.delivery_amount = opt.delivery_capacity_per_berth := by
  cases hr : (opt.evaluate_route route sd).1 with
  | none =>
      intro e he
      exact absurd he (List.not_mem_nil e)
  | some r =>
      simp only [Option.getD_some]
      exact evaluateRouteLoop_executable_amount opt.berth_change_cost_usd
        opt.delivery_capacity_per_berth route sd opt.silos route 0 0 0 []
        (by intro e he; simp at he) r hr

/-- C1: under a silo dict containing every routed berth, a route is
infeasible iff some position's cumulative day offset (which equals the
position index) makes is_available false for that berth; at the first
such position the evaluation stops immediately: both cost fields are
the infinite sentinel, the detail list has exactly failing-index + 1
entries, all earlier entries are executable and the failing entry is
non-executable with delivered amount 0. -/
theorem evaluate_route_infeasible_spec (opt : RouteOptimizer) (route : List String) (sd : Int)
    (hmem : ∀ b ∈ route, (lookupSilo opt.silos b).isSome = true) :
    ((opt.evaluate_route route sd).1.isSome = true) ∧
    ((((opt.evaluate_route route sd).1.getD default).feasible = false) ↔
      (∃ i, i < route.length ∧
        (getSilo opt.silos (route.getD i "")).is_available i
          opt.delivery_capacity_per_berth = false)) ∧
    (∀ f, f < route.length →
      (∀ j, j < f → (getSilo opt.silos (route.getD j "")).is_available j
        opt.delivery_capacity_per_berth = true) →
      (getSilo opt.silos (route.getD f "")).is_available f
        opt.delivery_capacity_per_berth = false →
      ((opt.evaluate_route route sd).1.getD default).feasible = false ∧
      ((opt.evaluate_route route sd).1.getD default).total_cost_usd = Cost.infinite ∧
      ((opt.evaluate_route route sd).1.getD default).total_cost_jpy = Cost.infinite ∧
      ((opt.evaluate_route route sd).1.getD default).details.length = f + 1 ∧
      (∀ j, j < f →
        (((opt.evaluate_route route sd).1.getD default).details.getD j default).executable
          = true) ∧
      (((opt.evaluate_route route sd).1.getD default).details.getD f default).executable
        = false ∧
      (((opt.evaluate_route route sd).1.getD default).details.getD f default).delivery_amount
        = 0) := by
  have hmemIdx : ∀ j, j < route.length →
      (lookupSilo opt.silos (route.getD j "")).isSome = true :=
    fun j hj => hmem _ (getD_mem_of_lt hj)
  have havOfNo : (∀ i, i < route.length →
      ¬ (getSilo opt.silos (route.getD i "")).is_available i
          opt.delivery_capacity_per_berth = false) →
      ∀ j, j < route.length →
        (getSilo opt.silos (route.getD j "")).is_available j
          opt.delivery_capacity_per_berth = true := by
    intro hno j hj
    cases h : (getSilo opt.silos (route.getD j "")).is_available j
        opt.delivery_capacity_per_berth with
    | false => exact absurd h (hno j hj)
    | true => rfl
  have hbeforeOf : ∀ (hex : ∃ i, i < route.length ∧
      (getSilo opt.silos (route.getD i "")).is_available i
        opt.delivery_capacity_per_berth = false),
      ∀ j, j < Nat.find hex →
        (getSilo opt.silos (route.getD j "")).is_available j
          opt.delivery_capacity_per_berth = true := by
    intro hex j hj
    have hmin := Nat.find_min hex hj
    have hjlen : j < route.length := lt_trans hj (Nat.find_spec hex).1
    cases h : (getSilo opt.silos (route.getD j "")).is_available j
        opt.delivery_capacity_per_berth with
    | false => exact absurd ⟨hjlen, h⟩ hmin
    | true => rfl
  have hfailEval : ∀ f, f < route.length →
      (∀ j, j < f → (getSilo opt.silos (route.getD j "")).is_available j
        opt.delivery_capacity_per_berth = true) →
      (getSilo opt.silos (route.getD f "")).is_available f
        opt.delivery_capacity_per_berth = false →
      opt.evaluate_route route sd
        = (some { route := route
                  total_cost_usd := Cost.infinite
                  total_cost_jpy := Cost.infinite
                  feasible := false
                  details := feasDetails opt.silos opt.delivery_capacity_per_berth sd
                      (route.take f) 0
                    ++ [{ berth := route.getD f ""
                          delivery_date := none
                          delivery_amount := 0
                          available_capacity :=
                            (getSilo opt.silos (route.getD f "")).get_available_capacity f
                          executable := false }] }, opt.silos) := by
    intro f hf hbefore hfail
    exact evaluate_route_fail_at opt route sd f hf (fun j hj => hmemIdx j (by omega))
      hbefore hfail
  refine ⟨?_, ⟨?_, ?_⟩, ?_⟩
  · by_cases hex : ∃ i, i < route.length ∧
        (getSilo opt.silos (route.getD i "")).is_available i
          opt.delivery_capacity_per_berth = false
    · obtain ⟨hflt, hffail⟩ := Nat.find_spec hex
      rw [hfailEval (Nat.find hex) hflt (hbeforeOf hex) hffail]
      rfl
    · push_neg at hex
      rw [evaluate_route_all_avail opt route sd hmemIdx (havOfNo hex)]
      rfl
  · intro hfeas
    by_contra hno
    push_neg at hno
    rw [evaluate_route_all_avail opt route sd hmemIdx (havOfNo hno)] at hfeas
    simp at hfeas
  · intro hex
    obtain ⟨hflt, hffail⟩ := Nat.find_spec hex
    rw [hfailEval (Nat.find hex) hflt (hbeforeOf hex) hffail]
    rfl
  · intro f hf hbefore hfail
    rw [hfailEval f hf hbefore hfail]
    have hlen1 : (feasDetails opt.silos opt.delivery_capacity_per_berth sd
        (route.take f) 0).length = f := by
      rw [feasDetails_length, List.length_take]
      omega
    refine ⟨rfl, rfl, rfl, ?_, ?_, ?_, ?_⟩
    · simp only [Option.getD_some, List.length_append, hlen1, List.length_singleton]
    · intro j hj
      simp only [Option.getD_some]
      rw [List.getD_append _ _ _ _ (by rw [hlen1]; exact hj)]
      rw [feasDetails_getD _ _ _ _ 0 j (by rw [List.length_take]; omega)]
    · simp only [Option.getD_some]
      rw [List.getD_append_right _ _ _ _ (by rw [hlen1])]
      simp [hlen1]
    · simp only [Option.getD_some]
      rw [List.getD_append_right _ _ _ _ (by rw [hlen1])]
      simp [hlen1]

/-- A feasible result implies every stop was available at its index:
otherwise the loop would have stopped at the first failure with the
infeasible flag. -/
theorem evaluate_route_all_avail_of_feasible (opt : RouteOptimizer) (route : List String)
    (sd : Int)
    (hmemIdx : ∀ j, j < route.length →
      (lookupSilo opt.silos (route.getD j "")).isSome = true)
    (hfeas : ((opt.evaluate_route route sd).1.getD default).feasible = true) :
    ∀ j, j < route.length →
      (getSilo opt.silos (route.getD j "")).is_available j
        opt.delivery_capacity_per_berth = true := by
  by_contra hno
  push_neg at hno
  obtain ⟨i, hi, hne⟩ := hno
  have hfi : (getSilo opt.silos (route.getD i "")).is_available i
      opt.delivery_capacity_per_berth = false := by
    cases h : (getSilo opt.silos (route.getD i "")).is_available i
        opt.delivery_capacity_per_berth with
    | true => exact absurd h hne
    | false => rfl
  have hex : ∃ i, i < route.length ∧
      (getSilo opt.silos (route.getD i "")).is_available i
        opt.delivery_capacity_per_berth = false := ⟨i, hi, hfi⟩
  obtain ⟨hflt, hffail⟩ := Nat.find_spec hex
  have hbefore : ∀ j, j < Nat.find hex →
      (getSilo opt.silos (route.getD j "")).is_available j
        opt.delivery_capacity_per_berth = true := by
    intro j hj
    have hmin := Nat.find_min hex hj
    have hjlen : j < route.length := lt_trans hj hflt
    cases h : (getSilo opt.silos (route.getD j "")).is_available j
        opt.delivery_capacity_per_berth with
    | false => exact absurd ⟨hjlen, h⟩ hmin
    | true => rfl
  rw [evaluate_route_fail_at opt route sd (Nat.find hex) hflt
    (fun j hj => hmemIdx j (by omega)) hbefore hffail] at hfeas
  simp at hfeas

/-- C2: a feasible route of length m costs exactly (m - 1) berth-change
charges in USD, independent of the berths involved and of capacity
numbers, and the JPY cost is that USD cost times the external exchange
rate. -/
theorem evaluate_route_feasible_cost (opt : RouteOptimizer) (route : List String) (sd : Int)
    (hmem : ∀ b ∈ route, (lookupSilo opt.silos b).isSome = true)
    (hfeas : ((opt.evaluate_route route sd).1.getD default).feasible = true) :
    ((opt.evaluate_route route sd).1.getD default).total_cost_usd
        = Cost.finite (((route.length - 1 : Nat) : ℚ) * opt.berth_change_cost_usd) ∧
    ((opt.evaluate_route route sd).1.getD default).total_cost_jpy
        = Cost.finite ((((route.length - 1 : Nat) : ℚ) * opt.berth_change_cost_usd)
            * get_usd_jpy_rate) := by
  have hmemIdx : ∀ j, j < route.length →
      (lookupSilo opt.silos (route.getD j "")).isSome = true :=
    fun j hj => hmem _ (getD_mem_of_lt hj)
  have hav := evaluate_route_all_avail_of_feasible opt route sd hmemIdx hfeas
  rw [evaluate_route_all_avail opt route sd hmemIdx hav]
  constructor <;> simp [chargeCount]

/-- C6: in a feasible evaluation the day offset advances by exactly one
per stop starting from zero: the result has one detail entry per stop,
entry i's delivery date is start_date + i days, its recorded available
capacity is the berth's capacity at offset i, and the availability
check that admitted it was made at offset i. -/
theorem evaluate_route_day_offsets (opt : RouteOptimizer) (route : List String) (sd : Int)
    (hmem : ∀ b ∈ route, (lookupSilo opt.silos b).isSome = true)
    (hfeas : ((opt.evaluate_route route sd).1.getD default).feasible = true) :
    ((opt.evaluate_route route sd).1.getD default).details.length = route.length ∧
    ∀ i, i < route.length →
      ((((opt.evaluate_route route sd).1.getD default).details.getD i default).delivery_date
          = some (sd + (i : Int)) ∧
        (((opt.evaluate_route route sd).1.getD default).details.getD i
            default).available_capacity
          = (getSilo opt.silos (route.getD i "")).get_available_capacity i ∧
        (getSilo opt.silos (route.getD i "")).is_available i
          opt.delivery_capacity_per_berth = true) := by
  have hmemIdx : ∀ j, j < route.length →
      (lookupSilo opt.silos (route.getD j "")).isSome = true :=
    fun j hj => hmem _ (getD_mem_of_lt hj)
  have hav := evaluate_route_all_avail_of_feasible opt route sd hmemIdx hfeas
  rw [evaluate_route_all_avail opt route sd hmemIdx hav]
  constructor
  · simp [feasDetails_length]
  · intro i hi
    simp only [Option.getD_some]
    rw [feasDetails_getD _ _ _ _ 0 i hi]
    refine ⟨by simp, by simp, hav i hi⟩

/-- Two-silo example configuration (both berths accept deliveries). -/
def exSiloA : SiloData := ⟨"A", 5000, 2000, 200⟩

/-- Second silo of the example configuration. -/
def exSiloB : SiloData := ⟨"B", 5000, 2000, 200⟩

/-- A silo that is permanently full (zero available capacity). -/
def exSiloFull : SiloData := ⟨"C", 1000, 1000, 0⟩

/-- An optimizer over the two deliverable silos, berth-change cost 100,
per-berth delivery capacity 1000. -/
def exOpt : RouteOptimizer := ⟨[("A", exSiloA), ("B", exSiloB)], 100, 1000⟩

/-- An optimizer whose second silo can never receive a delivery. -/
def exOptBad : RouteOptimizer := ⟨[("A", exSiloA), ("C", exSiloFull)], 100, 1000⟩

/-- Witness for C1: on the route visiting the full silo second, the
characterization yields infeasibility. -/
theorem evaluate_route_infeasible_spec_witness :
    ((exOptBad.evaluate_route ["A", "C"] 0).1.getD default).feasible = false :=
  ((evaluate_route_infeasible_spec exOptBad ["A", "C"] 0 (by decide)).2.1).mpr
    ⟨1, by decide, by decide⟩

/-- Witness for C2 on the feasible two-stop route. -/
theorem evaluate_route_feasible_cost_witness :
    ((exOpt.evaluate_route ["A", "B"] 0).1.getD default).total_cost_usd
        = Cost.finite ((((["A", "B"] : List String).length - 1 : Nat) : ℚ)
            * exOpt.berth_change_cost_usd) :=
  (evaluate_route_feasible_cost exOpt ["A", "B"] 0 (by decide) (by decide)).1

/-- Witness for C3 on the two-silo optimizer with bound one. -/
theorem generate_route_plans_spec_witness :
    (exOpt.generate_route_plans 1).length
      = ∑ j ∈ Finset.Icc 1 (min (1 + 1) ((exOpt.silos.map Prod.fst).length)),
          (((exOpt.silos.map Prod.fst).length).choose j) * j.factorial :=
  (generate_route_plans_spec exOpt 1 (by decide)).2.2.1

/-- Witness for C6 on the feasible two-stop route. -/
theorem evaluate_route_day_offsets_witness :
    ((exOpt.evaluate_route ["A", "B"] 0).1.getD default).details.length
      = (["A", "B"] : List String).length :=
  (evaluate_route_day_offsets exOpt ["A", "B"] 0 (by decide) (by decide)).1

/-- Witness for C10 on the first executable entry of the feasible
two-stop route. -/
theorem executable_entries_full_delivery_witness :
    ((((exOpt.evaluate_route ["A", "B"] 0).1.getD default).details.getD 0
        default).delivery_amount) = exOpt.delivery_capacity_per_berth :=
  executable_entries_full_delivery exOpt ["A", "B"] 0 _ (by decide) (by decide)
